import Mathlib

set_option linter.constructorNameAsVariable false
set_option linter.unusedVariables false

/-!
Verification of the justbytes `Range` value type (src/justbytes/_size.py):
exact-rational byte counts with strict type discipline across operand kinds,
unit conversion, the unit-selection ("components") algorithm, rounding with
bounds, and the error taxonomy.

The embedding translates `_size.py` directly.  The thin helper modules that
the repository keeps outside the core file (the unit tables of
`justbytes._constants`, the configuration bags of `justbytes._config`, the
generator utilities of `justbytes._util.generators`) and the external
`justbases` numeral primitives are modelled from the specification, as noted
on each such definition.
-/

namespace JustBytes

/-- Modelled from the spec: a named unit from a unit table
(justbytes._constants, not under src/): a prefix abbreviation together with
its numeric `factor` (base raised to the unit exponent). -/
structure NamedUnit where
  abbr : String
  factor : ℚ
deriving DecidableEq

/-- The Range value type of src/justbytes/_size.py: an immutable wrapper
around an exact rational `magnitude`, the number of bytes. -/
structure Range where
  magnitude : ℚ
deriving DecidableEq

/-- Modelled from the spec: the base byte unit `B` of justbytes._constants
(not under src/), with factor 1. -/
def B : NamedUnit := ⟨"", 1⟩

namespace BinaryUnits

/-- Modelled from the spec: the multiplicative base of the binary unit
family (justbytes._constants, not under src/). -/
def FACTOR : ℚ := 1024

/-- Modelled from the spec: the binary unit table of justbytes._constants
(not under src/), in ascending exponent order, each factor `FACTOR ^ exp`. -/
def UNITS : List NamedUnit :=
  [⟨"Ki", 1024⟩, ⟨"Mi", 1024 ^ 2⟩, ⟨"Gi", 1024 ^ 3⟩, ⟨"Ti", 1024 ^ 4⟩,
   ⟨"Pi", 1024 ^ 5⟩, ⟨"Ei", 1024 ^ 6⟩, ⟨"Zi", 1024 ^ 7⟩, ⟨"Yi", 1024 ^ 8⟩]

end BinaryUnits

namespace DecimalUnits

/-- Modelled from the spec: the multiplicative base of the decimal unit
family (justbytes._constants, not under src/). -/
def FACTOR : ℚ := 1000

/-- Modelled from the spec: the decimal unit table of justbytes._constants
(not under src/), in ascending exponent order, each factor `FACTOR ^ exp`. -/
def UNITS : List NamedUnit :=
  [⟨"k", 1000⟩, ⟨"M", 1000 ^ 2⟩, ⟨"G", 1000 ^ 3⟩, ⟨"T", 1000 ^ 4⟩,
   ⟨"P", 1000 ^ 5⟩, ⟨"E", 1000 ^ 6⟩, ⟨"Z", 1000 ^ 7⟩, ⟨"Y", 1000 ^ 8⟩]

end DecimalUnits

/-- The polymorphic unit-specifier input of `_size.py`: a named unit
(carrying a `factor`), a `Range` (its `magnitude` is the factor), a raw
precise number used directly as the factor, or a value that does not
classify as a unit specifier at all (anything outside `UNIT_TYPES` and
`Range` in `Range._get_unit_value`). -/
inductive UnitSpec where
  | named : NamedUnit → UnitSpec
  | size : Range → UnitSpec
  | num : ℚ → UnitSpec
  | unclassified : UnitSpec
deriving DecidableEq

/-- The error taxonomy of justbytes._errors as raised by `_size.py`:
RangeValueError, RangeFractionalResultError, RangeNonsensicalBinOpError,
RangeNonsensicalBinOpValueError, RangePowerResultError. -/
inductive RangeError where
  | valueError
  | fractionalResult
  | nonsensicalBinOp
  | nonsensicalBinOpValue
  | powerResult
deriving DecidableEq

/-- Embedding of `Range._get_unit_value` (src/justbytes/_size.py:66-79):
`None` for a value that does not classify, else the unit `factor`, or the
`magnitude` for a `Range`, or the raw number itself. -/
def get_unit_value : UnitSpec → Option ℚ
  | .named u => some u.factor
  | .size r => some r.magnitude
  | .num q => some q
  | .unclassified => none

/-- The first `value` argument of the `Range` initializer: a precise number
(a valid numeral string is its rational value), an existing `Range`, or
anything else (a float, a Decimal, a malformed numeral, ...), which the
initializer rejects with a value error. -/
inductive InitValue where
  | num : ℚ → InitValue
  | size : Range → InitValue
  | other : InitValue
deriving DecidableEq

/-- Embedding of `Range.__init__` (src/justbytes/_size.py:81-116).
`strict` is the global `Config.STRICT` flag (justbytes._config, not under
src/): when it is set, a non-integral resulting magnitude raises the
fractional-result error. -/
def Range.init (strict : Bool) (value : InitValue) (units : Option UnitSpec) :
    Except RangeError Range :=
  match value with
  | .num v =>
    match get_unit_value (units.getD (.named B)) with
    | none => .error .valueError
    | some factor =>
      if strict = true ∧ (v * factor).den ≠ 1 then .error .fractionalResult
      else .ok ⟨v * factor⟩
  | .size r =>
    match units with
    | some _ => .error .valueError
    | none =>
      if strict = true ∧ r.magnitude.den ≠ 1 then .error .fractionalResult
      else .ok ⟨r.magnitude⟩
  | .other => .error .valueError

/-- Every internal `Range(...)` call of `_size.py` passes a Fraction and no
units, so it runs the initializer with the default byte unit (factor 1);
this is that path. -/
def rangeOfFraction (strict : Bool) (m : ℚ) : Except RangeError Range :=
  Range.init strict (.num m) none


/-- The right-hand operand of a binary dunder method of `_size.py`: a
`Range`, a precise number, or any other object (which every operator
rejects as nonsensical). -/
inductive Operand where
  | size : Range → Operand
  | num : ℚ → Operand
  | other : Operand
deriving DecidableEq

/-- Embedding of `Range.__add__` = `Range.__radd__`
(src/justbytes/_size.py:190-195). -/
def Range.add (strict : Bool) (s : Range) (other : Operand) :
    Except RangeError Range :=
  match other with
  | .size t => rangeOfFraction strict (s.magnitude + t.magnitude)
  | _ => .error .nonsensicalBinOp

/-- Embedding of `Range.__sub__` (src/justbytes/_size.py:329-334). -/
def Range.sub (strict : Bool) (s : Range) (other : Operand) :
    Except RangeError Range :=
  match other with
  | .size t => rangeOfFraction strict (s.magnitude - t.magnitude)
  | _ => .error .nonsensicalBinOp

/-- Embedding of `Range.__rsub__` (src/justbytes/_size.py:336-341): the
reflected hook itself demands a `Range` operand and rejects anything else,
a number included, as nonsensical. -/
def Range.rsub (strict : Bool) (s : Range) (other : Operand) :
    Except RangeError Range :=
  match other with
  | .size t => rangeOfFraction strict (t.magnitude - s.magnitude)
  | _ => .error .nonsensicalBinOp

/-- Embedding of `Range.__mul__` = `Range.__rmul__`
(src/justbytes/_size.py:304-313): a number scales the size, two sizes
raise the power-result error, anything else is nonsensical. -/
def Range.mul (strict : Bool) (s : Range) (other : Operand) :
    Except RangeError Range :=
  match other with
  | .num q => rangeOfFraction strict (s.magnitude * q)
  | .size _ => .error .powerResult
  | .other => .error .nonsensicalBinOp

/-- Embedding of `Range.__pow__` (src/justbytes/_size.py:315-320): a
precise-number exponent raises the power-result error, any other operand
(a `Range` included) raises the nonsensical-operation error; no power
expression ever returns a value (result type `Empty`). -/
def Range.pow (s : Range) (other : Operand) : Except RangeError Empty :=
  match other with
  | .num _ => .error .powerResult
  | _ => .error .nonsensicalBinOp

/-- Embedding of `Range.__rpow__` (src/justbytes/_size.py:322-324), the
hook Python invokes for `n ** s`: it rejects every operand as
nonsensical. -/
def Range.rpow (s : Range) (other : Operand) : Except RangeError Empty :=
  .error .nonsensicalBinOp

/-- Embedding of `Range.__truediv__` (src/justbytes/_size.py:343-356):
size / size is an exact rational, size / number is a `Range`; a zero
divisor raises the nonsensical-value error. -/
def Range.truediv (strict : Bool) (s : Range) (other : Operand) :
    Except RangeError (ℚ ⊕ Range) :=
  match other with
  | .size t =>
    if t.magnitude = 0 then .error .nonsensicalBinOpValue
    else .ok (.inl (s.magnitude / t.magnitude))
  | .num q =>
    if q = 0 then .error .nonsensicalBinOpValue
    else (rangeOfFraction strict (s.magnitude / q)).map .inr
  | .other => .error .nonsensicalBinOp

/-- Embedding of `Range.__rtruediv__` (src/justbytes/_size.py:360-368):
only a `Range` operand is accepted. -/
def Range.rtruediv (s : Range) (other : Operand) : Except RangeError ℚ :=
  match other with
  | .size t =>
    if s.magnitude = 0 then .error .nonsensicalBinOpValue
    else .ok (t.magnitude / s.magnitude)
  | _ => .error .nonsensicalBinOp

/-- Embedding of `Range.__floordiv__` (src/justbytes/_size.py:232-246):
size // size is an exact integer, size // number is a `Range`. -/
def Range.floordiv (strict : Bool) (s : Range) (other : Operand) :
    Except RangeError (ℤ ⊕ Range) :=
  match other with
  | .size t =>
    if t.magnitude = 0 then .error .nonsensicalBinOpValue
    else .ok (.inl ⌊s.magnitude / t.magnitude⌋)
  | .num q =>
    if q = 0 then .error .nonsensicalBinOpValue
    else (rangeOfFraction strict ((⌊s.magnitude / q⌋ : ℤ) : ℚ)).map .inr
  | .other => .error .nonsensicalBinOp

/-- Embedding of `Range.__rfloordiv__` (src/justbytes/_size.py:248-256):
only a `Range` operand is accepted. -/
def Range.rfloordiv (s : Range) (other : Operand) : Except RangeError ℤ :=
  match other with
  | .size t =>
    if s.magnitude = 0 then .error .nonsensicalBinOpValue
    else .ok ⌊t.magnitude / s.magnitude⌋
  | _ => .error .nonsensicalBinOp

/-- Embedding of `Range.__mod__` (src/justbytes/_size.py:279-292), with
Python Fraction semantics `a % b = a - b * floor (a / b)`. -/
def Range.mod (strict : Bool) (s : Range) (other : Operand) :
    Except RangeError Range :=
  match other with
  | .size t =>
    if t.magnitude = 0 then .error .nonsensicalBinOpValue
    else rangeOfFraction strict
      (s.magnitude - t.magnitude * ⌊s.magnitude / t.magnitude⌋)
  | .num q =>
    if q = 0 then .error .nonsensicalBinOpValue
    else rangeOfFraction strict (s.magnitude - q * ⌊s.magnitude / q⌋)
  | .other => .error .nonsensicalBinOp

/-- Embedding of `Range.__rmod__` (src/justbytes/_size.py:294-302): only a
`Range` operand is accepted. -/
def Range.rmod (strict : Bool) (s : Range) (other : Operand) :
    Except RangeError Range :=
  match other with
  | .size t =>
    if s.magnitude = 0 then .error .nonsensicalBinOpValue
    else rangeOfFraction strict
      (t.magnitude - s.magnitude * ⌊t.magnitude / s.magnitude⌋)
  | _ => .error .nonsensicalBinOp

/-- Embedding of `Range.__divmod__` (src/justbytes/_size.py:197-214):
divmod with a size is an (integer, Range) pair, divmod with a number is a
(Range, Range) pair. -/
def Range.divmodOp (strict : Bool) (s : Range) (other : Operand) :
    Except RangeError ((ℤ × Range) ⊕ (Range × Range)) :=
  match other with
  | .size t =>
    if t.magnitude = 0 then .error .nonsensicalBinOpValue
    else
      (rangeOfFraction strict
        (s.magnitude - t.magnitude * ⌊s.magnitude / t.magnitude⌋)).map
        fun rem => .inl (⌊s.magnitude / t.magnitude⌋, rem)
  | .num q =>
    if q = 0 then .error .nonsensicalBinOpValue
    else
      (rangeOfFraction strict ((⌊s.magnitude / q⌋ : ℤ) : ℚ)).bind fun d =>
        (rangeOfFraction strict (s.magnitude - q * ⌊s.magnitude / q⌋)).map
          fun rem => .inr (d, rem)
  | .other => .error .nonsensicalBinOp

/-- Embedding of `Range.__rdivmod__` (src/justbytes/_size.py:216-227):
only a `Range` operand is accepted. -/
def Range.rdivmod (strict : Bool) (s : Range) (other : Operand) :
    Except RangeError (ℤ × Range) :=
  match other with
  | .size t =>
    if s.magnitude = 0 then .error .nonsensicalBinOpValue
    else
      (rangeOfFraction strict
        (t.magnitude - s.magnitude * ⌊t.magnitude / s.magnitude⌋)).map
        fun rem => (⌊t.magnitude / s.magnitude⌋, rem)
  | _ => .error .nonsensicalBinOp

/-- Embedding of `Range.__eq__` (src/justbytes/_size.py:229-230): equal to
a `Range` of equal magnitude, `False` against any other operand, never an
error. -/
def Range.eq (s : Range) (other : Operand) : Bool :=
  match other with
  | .size t => decide (s.magnitude = t.magnitude)
  | _ => false

/-- Embedding of `Range.__ne__` (src/justbytes/_size.py:326-327). -/
def Range.ne (s : Range) (other : Operand) : Bool :=
  match other with
  | .size t => decide (s.magnitude ≠ t.magnitude)
  | _ => true

/-- Embedding of `Range.__hash__` (src/justbytes/_size.py:172-173): the
hash is computed from the magnitude alone. -/
def Range.hashValue (s : Range) : UInt64 :=
  hash (s.magnitude.num, s.magnitude.den)

/-- Embedding of `Range.__neg__` (src/justbytes/_size.py:183-184). -/
def Range.neg (strict : Bool) (s : Range) : Except RangeError Range :=
  rangeOfFraction strict (-s.magnitude)

/-- Embedding of `Range.__abs__` (src/justbytes/_size.py:180-181). -/
def Range.absOp (strict : Bool) (s : Range) : Except RangeError Range :=
  rangeOfFraction strict |s.magnitude|

/-- Embedding of `Range.__pos__` (src/justbytes/_size.py:186-187). -/
def Range.pos (strict : Bool) (s : Range) : Except RangeError Range :=
  rangeOfFraction strict s.magnitude

/-- Embedding of `Range.__deepcopy__` (src/justbytes/_size.py:160-162). -/
def Range.deepcopy (strict : Bool) (s : Range) : Except RangeError Range :=
  rangeOfFraction strict s.magnitude

/-- Embedding of `Range.convertTo` (src/justbytes/_size.py:372-392): the
specifier defaults to the byte unit, an unclassifiable specifier or a
non-positive factor is a value error, else the exact rational
`magnitude / factor`. -/
def Range.convertTo (s : Range) (spec : Option UnitSpec) :
    Except RangeError ℚ :=
  match get_unit_value (spec.getD (.named B)) with
  | none => .error .valueError
  | some factor =>
    if factor ≤ 0 then .error .valueError
    else .ok (s.magnitude / factor)

/-- The unit family selected by `binary_units` (src/justbytes/_size.py:402
and 421, `units = BinaryUnits if binary_units else DecimalUnits`). -/
def familyUnits (binary_units : Bool) : List NamedUnit :=
  if binary_units then BinaryUnits.UNITS else DecimalUnits.UNITS

/-- The factor of the unit family selected by `binary_units`. -/
def familyFactor (binary_units : Bool) : ℚ :=
  if binary_units then BinaryUnits.FACTOR else DecimalUnits.FACTOR

/-- Embedding of `Range.componentsList` (src/justbytes/_size.py:394-405):
one `(value-in-unit, unit)` pair for the byte unit followed by every unit
of the chosen family in ascending exponent order.  Every table factor is
positive, so the `convertTo` call it makes never raises and equals plain
division (theorem `convertTo_table_unit`). -/
def Range.componentsList (s : Range) (binary_units : Bool) :
    List (ℚ × NamedUnit) :=
  ((B :: familyUnits binary_units).map
    fun u => (s.magnitude / u.factor, u))

/-- Modelled from the spec: `takeuntil` of justbytes._util.generators (not
under src/) yields elements of the sequence up to and including the first
one satisfying the predicate (the lazy truncation of spec section 4.4;
behavior fixed by src/tests/test_pypbt/test_util.py). -/
def takeuntil {α : Type} (p : α → Bool) : List α → List α
  | [] => []
  | x :: xs => x :: (if p x then [] else takeuntil p xs)

/-- Modelled from the spec: `next_or_last` of justbytes._util.generators
(not under src/) returns the first element satisfying the predicate, else
the last element of the sequence, else the default `none` on an empty
sequence (behavior fixed by src/tests/test_pypbt/test_util.py). -/
def next_or_last {α : Type} (p : α → Bool) : List α → Option α
  | [] => none
  | [x] => some x
  | x :: xs => if p x then some x else next_or_last p xs

/-- Modelled from the spec: the value-conversion policy bag
`ValueConfig` of justbytes._config (not under src/): numeral base, maximum
fractional places, binary-vs-decimal family, minimum-magnitude threshold,
optional forced unit, exact-decomposition preference. -/
structure ValueConfig where
  base : ℕ
  max_places : ℕ
  binary_units : Bool
  min_value : ℚ
  unit : Option UnitSpec
  exact_value : Bool
deriving DecidableEq

/-- Modelled from the spec: the exactness relation reported by the
external digit-rendering primitive `justbases.Radices.from_rational` as
used by `Range._as_single_number` (src/justbytes/_size.py:50-64): 0 when
the rendering of `v` in the configured base with at most `max_places`
fractional digits is exact — that is, when `v * base ^ max_places` is an
integer — and nonzero when it is approximate. -/
def as_single_number_relation (base max_places : ℕ) (v : ℚ) : ℤ :=
  if (v * (base : ℚ) ^ max_places).den = 1 then 0 else 1

/-- The candidate list built by `Range.components`
(src/justbytes/_size.py:430-432): the prefix of `componentsList` up to and
including the first unit whose represented value has absolute value below
`FACTOR * min_value`. -/
def Range.candidatesList (s : Range) (config : ValueConfig) :
    List (ℚ × NamedUnit) :=
  takeuntil
    (fun x => decide (|x.1| < familyFactor config.binary_units
      * config.min_value))
    (s.componentsList config.binary_units)

/-- Embedding of `Range.components` (src/justbytes/_size.py:407-439): a
forced unit short-circuits; otherwise the candidates are scanned as the
configuration demands.  The fallback `.error .valueError` branches are
unreachable: the candidate list is never empty. -/
def Range.components (s : Range) (config : ValueConfig) :
    Except RangeError (ℚ × UnitSpec) :=
  match config.unit with
  | some u => (s.convertTo (some u)).map fun v => (v, u)
  | none =>
    if config.exact_value then
      match next_or_last
          (fun x =>
            decide (as_single_number_relation config.base config.max_places
              x.1 = 0))
          (s.candidatesList config).reverse with
      | some (v, u) => .ok (v, .named u)
      | none => .error .valueError
    else
      match (s.candidatesList config).getLast? with
      | some (v, u) => .ok (v, .named u)
      | none => .error .valueError

/-- Modelled from the spec: the rounding-method enumerants of
justbytes._constants / justbases (not under src/): round up (away toward
positive infinity), round down (toward negative infinity), round toward
zero, and the three half variants (behavior fixed by
src/tests/test_pypbt/test_size/test_named.py). -/
inductive RoundingMethod where
  | up
  | down
  | toZero
  | halfUp
  | halfDown
  | halfZero
deriving DecidableEq

/-- Modelled from the spec: the external primitive
`justbases.Rationals.round_to_int` rounds an exact rational to an integer
under the chosen method (src/tests/test_pypbt/test_size/test_named.py
fixes ROUND_UP to the ceiling, ROUND_DOWN to the floor, ROUND_TO_ZERO to
truncation, and the half methods to the nearest integer with the
respective tie direction). -/
def round_to_int (q : ℚ) : RoundingMethod → ℤ
  | .up => ⌈q⌉
  | .down => ⌊q⌋
  | .toZero => if 0 ≤ q then ⌊q⌋ else ⌈q⌉
  | .halfUp => ⌊q + 1 / 2⌋
  | .halfDown => ⌈q - 1 / 2⌉
  | .halfZero => if 0 ≤ q then ⌈q - 1 / 2⌉ else ⌊q + 1 / 2⌋

/-- Embedding of `Range.roundTo` (src/justbytes/_size.py:441-488): resolve
the unit to a factor (negative is a value error, zero short-circuits to
the zero size), round `magnitude / factor` to an integer and scale back,
then validate the bounds and clamp. -/
def Range.roundTo (strict : Bool) (s : Range) (unit : UnitSpec)
    (rounding : RoundingMethod) (bounds : Option Range × Option Range) :
    Except RangeError Range :=
  match get_unit_value unit with
  | none => .error .valueError
  | some factor =>
    if factor < 0 then .error .valueError
    else
      match
        if factor = 0 then rangeOfFraction strict 0
        else rangeOfFraction strict
          ((round_to_int (s.magnitude / factor) rounding : ℚ) * factor) with
      | .error e => .error e
      | .ok res =>
        match bounds.1, bounds.2 with
        | some lower, some upper =>
          if upper.magnitude < lower.magnitude then .error .valueError
          else if res.magnitude < lower.magnitude then .ok lower
          else if upper.magnitude < res.magnitude then .ok upper
          else .ok res
        | some lower, none =>
          if res.magnitude < lower.magnitude then .ok lower else .ok res
        | none, some upper =>
          if upper.magnitude < res.magnitude then .ok upper else .ok res
        | none, none => .ok res

/-- Definition following the words of claim C1 (spec section 4.4 step 3):
the first unit — scanning the byte unit and then the family units in
ascending exponent order — whose represented value has absolute value
strictly below `FACTOR * min_value`; the coarsest (largest-exponent)
family unit when no unit qualifies. -/
def selectUnit (s : Range) (binary_units : Bool) (min_value : ℚ) :
    NamedUnit :=
  match (B :: familyUnits binary_units).find?
      (fun u => decide (|s.magnitude / u.factor| <
        familyFactor binary_units * min_value)) with
  | some u => u
  | none => (familyUnits binary_units).getLastD B

/-- Definition following the words of claim C2 (spec section 4.4 step 4):
scan the candidate list from the coarsest unit toward the finest and take
the first candidate whose value the rendering primitive reports as exact;
the byte-unit entry when no candidate is exact. -/
def selectExactPair (s : Range) (config : ValueConfig) : ℚ × NamedUnit :=
  match (s.candidatesList config).reverse.find?
      (fun x => decide (as_single_number_relation config.base
        config.max_places x.1 = 0)) with
  | some c => c
  | none => (s.magnitude / B.factor, B)

/-- A concrete decimal, non-exact value configuration used by the C1
witness. -/
def cfgInexact : ValueConfig := ⟨10, 2, false, 1, none, false⟩

/-- A concrete decimal, exact-preferring value configuration used by the
C2 witness. -/
def cfgExact : ValueConfig := ⟨10, 2, false, 1, none, true⟩

/-- A concrete binary value configuration used by the C8 witness. -/
def cfgCoverage : ValueConfig := ⟨10, 2, true, 1, none, false⟩

theorem rangeOfFraction_eq (strict : Bool) (m : ℚ) :
    rangeOfFraction strict m =
      if strict = true ∧ m.den ≠ 1 then .error .fractionalResult
      else .ok ⟨m⟩ := by
  simp [rangeOfFraction, Range.init, get_unit_value, B]

theorem find?_map {α β : Type} (f : α → β) (p : β → Bool) (l : List α) :
    (l.map f).find? p = (l.find? fun a => p (f a)).map f := by
  induction l with
  | nil => rfl
  | cons x xs ih =>
    cases h : p (f x) <;>
      simp [List.find?_cons, h, ih]

theorem mem_of_getLast?_eq_some {α : Type} {l : List α} {a : α}
    (h : l.getLast? = some a) : a ∈ l := by
  induction l with
  | nil => simp at h
  | cons x xs ih =>
    cases xs with
    | nil =>
      simp only [List.getLast?_singleton, Option.some.injEq] at h
      simp [h]
    | cons y ys =>
      rw [List.getLast?_cons_cons] at h
      exact List.mem_cons_of_mem _ (ih h)

theorem getLast?_cons_eq_getLastD {α : Type} (x : α) (l : List α) :
    (x :: l).getLast? = some (l.getLastD x) := by
  induction l generalizing x with
  | nil => rfl
  | cons y ys ih => rw [List.getLast?_cons_cons, ih, List.getLastD_cons]

theorem takeuntil_nil {α : Type} (p : α → Bool) : takeuntil p [] = [] := rfl

theorem takeuntil_cons {α : Type} (p : α → Bool) (x : α) (xs : List α) :
    takeuntil p (x :: xs) = x :: (if p x then [] else takeuntil p xs) := rfl

theorem next_or_last_cons_cons {α : Type} (p : α → Bool) (x y : α)
    (ys : List α) :
    next_or_last p (x :: y :: ys) =
      if p x then some x else next_or_last p (y :: ys) := rfl

theorem getLast?_takeuntil {α : Type} (p : α → Bool) (l : List α) :
    (takeuntil p l).getLast? = (l.find? p).or l.getLast? := by
  induction l with
  | nil => rfl
  | cons x xs ih =>
    by_cases h : p x = true
    · simp [takeuntil_cons, h, List.find?_cons]
    · rw [Bool.not_eq_true] at h
      cases xs with
      | nil => simp [takeuntil_cons, takeuntil_nil, h, List.find?_cons]
      | cons y ys =>
        rw [takeuntil_cons, if_neg (by simp [h]), takeuntil_cons,
          List.getLast?_cons_cons, ← takeuntil_cons,
          List.find?_cons_of_neg _ (by simp [h]), List.getLast?_cons_cons]
        exact ih

theorem next_or_last_eq {α : Type} (p : α → Bool) (l : List α) :
    next_or_last p l = (l.find? p).or l.getLast? := by
  induction l with
  | nil => rfl
  | cons x xs ih =>
    cases xs with
    | nil =>
      by_cases h : p x = true <;>
        simp [next_or_last, List.find?_cons, h]
    | cons y ys =>
      by_cases h : p x = true
      · simp [next_or_last, List.find?_cons, h]
      · rw [Bool.not_eq_true] at h
        rw [next_or_last_cons_cons, if_neg (by simp [h]),
          List.find?_cons_of_neg _ (by simp [h]), List.getLast?_cons_cons]
        exact ih

theorem mem_of_mem_takeuntil {α : Type} {p : α → Bool} {a : α} :
    ∀ {l : List α}, a ∈ takeuntil p l → a ∈ l := by
  intro l
  induction l with
  | nil => intro h; exact h
  | cons x xs ih =>
    intro h
    rw [takeuntil_cons] at h
    rcases List.mem_cons.mp h with h1 | h2
    · exact h1 ▸ List.mem_cons_self x xs
    · refine List.mem_cons_of_mem _ ?_
      by_cases hp : p x = true
      · rw [if_pos hp] at h2
        simp at h2
      · rw [if_neg hp] at h2
        exact ih h2


theorem mem_units_factor_pos {b : Bool} {u : NamedUnit}
    (h : u ∈ B :: familyUnits b) : 0 < u.factor := by
  cases b <;>
    simp only [familyUnits, if_true, if_false, BinaryUnits.UNITS,
      DecimalUnits.UNITS, B, Bool.false_eq_true, Bool.true_eq_false] at h <;>
    fin_cases h <;> norm_num

theorem selectUnit_mem (s : Range) (b : Bool) (minv : ℚ) :
    selectUnit s b minv ∈ B :: familyUnits b := by
  unfold selectUnit
  rcases hf : (B :: familyUnits b).find?
      (fun u => decide (|s.magnitude / u.factor| <
        familyFactor b * minv)) with _ | u
  · rw [hf]
    exact mem_of_getLast?_eq_some (getLast?_cons_eq_getLastD B _)
  · rw [hf]
    exact List.mem_of_find?_eq_some hf

theorem convertTo_named_pos (s : Range) (u : NamedUnit)
    (h : 0 < u.factor) :
    s.convertTo (some (.named u)) = .ok (s.magnitude / u.factor) := by
  rw [Range.convertTo]
  simp [get_unit_value, not_le.mpr h]

theorem convertTo_table_unit (s : Range) (b : Bool) (u : NamedUnit)
    (h : u ∈ B :: familyUnits b) :
    s.convertTo (some (.named u)) = .ok (s.magnitude / u.factor) :=
  convertTo_named_pos s u (mem_units_factor_pos h)

theorem candidatesList_getLast? (s : Range) (config : ValueConfig) :
    (s.candidatesList config).getLast? =
      some (s.magnitude /
          (selectUnit s config.binary_units config.min_value).factor,
        selectUnit s config.binary_units config.min_value) := by
  simp only [Range.candidatesList, getLast?_takeuntil, Range.componentsList,
    find?_map, List.getLast?_map]
  unfold selectUnit
  rcases hf : (B :: familyUnits config.binary_units).find?
      (fun u => decide (|s.magnitude / u.factor| <
        familyFactor config.binary_units * config.min_value)) with _ | u
  · rw [hf, getLast?_cons_eq_getLastD]
    simp [Option.or]
  · rw [hf]
    simp [Option.or]

/-- C1: for every Size and every value-configuration with no forced unit
and `exact_value` false, `components` returns `(s.convertTo u, u)` where
`u` is the first unit — scanning the byte unit followed by the family
units in ascending exponent order — whose represented value has absolute
value strictly below `FACTOR * min_value`, and the coarsest
(largest-exponent) family unit when no unit qualifies (`selectUnit`);
the first qualifying unit alone determines the result, so units after it
are never considered. -/
theorem components_inexact_first_qualifying (s : Range)
    (config : ValueConfig) (hu : config.unit = none)
    (he : config.exact_value = false) :
    s.components config =
      .ok (s.magnitude /
          (selectUnit s config.binary_units config.min_value).factor,
        .named (selectUnit s config.binary_units config.min_value)) ∧
    s.convertTo (some (.named
        (selectUnit s config.binary_units config.min_value))) =
      .ok (s.magnitude /
        (selectUnit s config.binary_units config.min_value).factor) := by
  refine ⟨?_,
    convertTo_named_pos s _ (mem_units_factor_pos (selectUnit_mem s _ _))⟩
  unfold Range.components
  rw [hu, he]
  simp only [Bool.false_eq_true, if_false]
  rw [candidatesList_getLast?]

/-- Witness for C1: the hypotheses hold and the theorem applies at the
1500-byte Range under `cfgInexact`. -/
theorem components_inexact_first_qualifying_witness :
    cfgInexact.unit = none ∧ cfgInexact.exact_value = false ∧
    (Range.mk 1500).components cfgInexact =
      .ok ((1500 : ℚ) / (selectUnit ⟨1500⟩ false 1).factor,
        .named (selectUnit ⟨1500⟩ false 1)) :=
  ⟨rfl, rfl,
    (components_inexact_first_qualifying ⟨1500⟩ cfgInexact rfl rfl).1⟩

theorem candidatesList_head? (s : Range) (config : ValueConfig) :
    (s.candidatesList config).head? = some (s.magnitude / B.factor, B) :=
  rfl

/-- C2: for every Size and every value-configuration with no forced unit
and `exact_value` true, `components` scans the candidate list from the
coarsest unit toward the finest and returns the first candidate whose
value the external rendering primitive reports as exact (relation 0) at
the configured base and precision; when no candidate is exact it returns
the last-scanned candidate of that reversed scan, the byte-unit entry
(`selectExactPair`). -/
theorem components_exact_prefers_coarse (s : Range) (config : ValueConfig)
    (hu : config.unit = none) (he : config.exact_value = true) :
    s.components config =
      .ok ((selectExactPair s config).1,
        .named (selectExactPair s config).2) := by
  unfold Range.components
  rw [hu, he, if_pos rfl, next_or_last_eq]
  unfold selectExactPair
  rcases hf : (s.candidatesList config).reverse.find?
      (fun x => decide (as_single_number_relation config.base
        config.max_places x.1 = 0)) with _ | c
  · rw [hf, List.getLast?_reverse, candidatesList_head?]
    simp [Option.or]
  · obtain ⟨v, u⟩ := c
    rw [hf]
    simp [Option.or]

/-- Witness for C2: the hypotheses hold and the theorem applies at the
1500-byte Range under `cfgExact`. -/
theorem components_exact_prefers_coarse_witness :
    cfgExact.unit = none ∧ cfgExact.exact_value = true ∧
    (Range.mk 1500).components cfgExact =
      .ok ((selectExactPair ⟨1500⟩ cfgExact).1,
        .named (selectExactPair ⟨1500⟩ cfgExact).2) :=
  ⟨rfl, rfl, components_exact_prefers_coarse ⟨1500⟩ cfgExact rfl rfl⟩

theorem convertTo_ok {s : Range} {spec : UnitSpec} {v : ℚ}
    (h : s.convertTo (some spec) = .ok v) :
    ∃ f, get_unit_value spec = some f ∧ 0 < f ∧ v = s.magnitude / f := by
  rcases hg : get_unit_value spec with _ | f
  · simp [Range.convertTo, hg] at h
  · by_cases hf : f ≤ 0
    · simp [Range.convertTo, hg, hf] at h
    · simp only [Range.convertTo, Option.getD_some, hg, if_neg hf,
        Except.ok.injEq] at h
      exact ⟨f, rfl, not_le.mp hf, h.symm⟩

theorem mem_of_next_or_last_eq_some {α : Type} {p : α → Bool}
    {l : List α} {a : α} (h : next_or_last p l = some a) : a ∈ l := by
  rw [next_or_last_eq] at h
  rcases hf : l.find? p with _ | b <;> rw [hf] at h
  · simp only [Option.or] at h
    exact mem_of_getLast?_eq_some h
  · simp only [Option.or, Option.some.injEq] at h
    exact h ▸ List.mem_of_find?_eq_some hf

theorem componentsList_mem {s : Range} {b : Bool} {x : ℚ × NamedUnit}
    (h : x ∈ s.componentsList b) :
    x.2 ∈ B :: familyUnits b ∧ x.1 = s.magnitude / x.2.factor := by
  rw [Range.componentsList] at h
  rcases List.mem_map.mp h with ⟨w, hw, rfl⟩
  exact ⟨hw, rfl⟩

theorem candidatesList_mem {s : Range} {config : ValueConfig}
    {x : ℚ × NamedUnit} (h : x ∈ s.candidatesList config) :
    x.2 ∈ B :: familyUnits config.binary_units ∧
      x.1 = s.magnitude / x.2.factor :=
  componentsList_mem (mem_of_mem_takeuntil h)

/-- C8: whenever `components` accepts a configuration and returns
`(value, unit)`, then `value * factor unit` recovers the magnitude
exactly, and with no forced unit the returned unit is the base byte unit
or a member of the requested family. -/
theorem components_coverage (s : Range) (config : ValueConfig) (v : ℚ)
    (u : UnitSpec) (h : s.components config = .ok (v, u)) :
    (∃ f, get_unit_value u = some f ∧ v * f = s.magnitude) ∧
    (config.unit = none →
      ∃ w, u = .named w ∧
        (w = B ∨ w ∈ familyUnits config.binary_units)) := by
  rcases hcu : config.unit with _ | spec
  · have hcand :
        ∃ c : ℚ × NamedUnit, c ∈ s.candidatesList config ∧
          v = c.1 ∧ u = .named c.2 := by
      by_cases hex : config.exact_value = true
      · simp only [Range.components, hcu, hex, eq_self_iff_true,
          if_true] at h
        rcases hn : next_or_last
            (fun x => decide (as_single_number_relation config.base
              config.max_places x.1 = 0))
            (s.candidatesList config).reverse with _ | c
        · simp only [hn] at h
          exact absurd h (by simp)
        · obtain ⟨cv, cu⟩ := c
          simp only [hn, Except.ok.injEq, Prod.mk.injEq] at h
          exact ⟨(cv, cu),
            List.mem_reverse.mp (mem_of_next_or_last_eq_some hn),
            h.1.symm, h.2.symm⟩
      · rw [Bool.not_eq_true] at hex
        simp only [Range.components, hcu, hex, Bool.false_eq_true,
          if_false] at h
        rcases hn : (s.candidatesList config).getLast? with _ | c
        · simp only [hn] at h
          exact absurd h (by simp)
        · obtain ⟨cv, cu⟩ := c
          simp only [hn, Except.ok.injEq, Prod.mk.injEq] at h
          exact ⟨(cv, cu), mem_of_getLast?_eq_some hn,
            h.1.symm, h.2.symm⟩
    obtain ⟨c, hc, rfl, rfl⟩ := hcand
    obtain ⟨hmem, hval⟩ := candidatesList_mem hc
    have hpos := mem_units_factor_pos hmem
    refine ⟨⟨c.2.factor, rfl, ?_⟩, fun _ => ⟨c.2, rfl, List.mem_cons.mp hmem⟩⟩
    rw [hval]
    exact div_mul_cancel₀ s.magnitude (ne_of_gt hpos)
  · rcases hc : s.convertTo (some spec) with e | v0
    · simp [Range.components, hcu, hc, Except.map] at h
    · simp only [Range.components, hcu, hc, Except.map, Except.ok.injEq,
        Prod.mk.injEq] at h
      obtain ⟨rfl, rfl⟩ := h
      obtain ⟨f, hg, hfpos, rfl⟩ := convertTo_ok hc
      refine ⟨⟨f, hg, div_mul_cancel₀ s.magnitude (ne_of_gt hfpos)⟩, ?_⟩
      intro hnone
      simp at hnone

/-- Witness for C8: at the 1024-byte Range under `cfgCoverage`,
`components` returns `(1, KiB)`, and the coverage theorem applies
there. -/
theorem components_coverage_witness :
    (Range.mk 1024).components cfgCoverage =
      .ok (1, .named ⟨"Ki", 1024⟩) ∧
    ((∃ f, get_unit_value (.named ⟨"Ki", 1024⟩) = some f ∧
        (1 : ℚ) * f = (Range.mk 1024).magnitude) ∧
      (cfgCoverage.unit = none →
        ∃ w, UnitSpec.named ⟨"Ki", 1024⟩ = .named w ∧
          (w = B ∨ w ∈ familyUnits cfgCoverage.binary_units))) := by
  have h : (Range.mk 1024).components cfgCoverage =
      .ok (1, .named ⟨"Ki", 1024⟩) := by
    norm_num [cfgCoverage, Range.components, Range.candidatesList,
      Range.componentsList, familyUnits, familyFactor, BinaryUnits.UNITS,
      BinaryUnits.FACTOR, B, takeuntil_cons, takeuntil_nil, abs_of_nonneg]
  exact ⟨h,
    components_coverage ⟨1024⟩ cfgCoverage 1 (.named ⟨"Ki", 1024⟩) h⟩

theorem rangeOfFraction_false (m : ℚ) :
    rangeOfFraction false m = .ok ⟨m⟩ := by
  rw [rangeOfFraction_eq]
  simp

/-- C3: under the default non-strict mode, for every unit specifier with
non-negative factor and legal bounds (each absent or a Range, lower not
above upper when both are present) the rounded result is clamped into the
bounds — even against the direction of the rounding method — and when
both bounds are present with lower above upper, `roundTo` raises the
value error. -/
theorem roundTo_bounds (s : Range) (unit : UnitSpec)
    (rounding : RoundingMethod) (lower upper : Option Range) (f : ℚ)
    (hf : get_unit_value unit = some f) (hf0 : 0 ≤ f) :
    ((∀ l, lower = some l → ∀ u, upper = some u →
        l.magnitude ≤ u.magnitude) →
      ∀ r, s.roundTo false unit rounding (lower, upper) = .ok r →
        (∀ l, lower = some l → l.magnitude ≤ r.magnitude) ∧
        (∀ u, upper = some u → r.magnitude ≤ u.magnitude)) ∧
    (∀ l u, lower = some l → upper = some u →
      u.magnitude < l.magnitude →
      s.roundTo false unit rounding (lower, upper) =
        .error .valueError) := by
  have hres : ∃ m : ℚ,
      (if f = 0 then rangeOfFraction false 0
        else rangeOfFraction false
          ((round_to_int (s.magnitude / f) rounding : ℚ) * f)) =
        .ok ⟨m⟩ := by
    by_cases h0 : f = 0
    · exact ⟨0, by rw [if_pos h0, rangeOfFraction_false]⟩
    · exact ⟨_, by rw [if_neg h0, rangeOfFraction_false]⟩
  obtain ⟨m, hm⟩ := hres
  constructor
  · intro hlegal r hr
    rcases lower with _ | l <;> rcases upper with _ | u <;>
      simp only [Range.roundTo, hf, if_neg (not_lt.mpr hf0), hm] at hr
    · exact ⟨fun l hl => (nomatch hl), fun u hu => (nomatch hu)⟩
    · refine ⟨fun l₀ hl => (nomatch hl), fun u₀ hu => ?_⟩
      cases hu
      split_ifs at hr with h1 <;>
        simp only [Except.ok.injEq] at hr <;> subst hr
      · exact le_refl _
      · exact le_of_not_lt h1
    · refine ⟨fun l₀ hl => ?_, fun u₀ hu => (nomatch hu)⟩
      cases hl
      split_ifs at hr with h1 <;>
        simp only [Except.ok.injEq] at hr <;> subst hr
      · exact le_refl _
      · exact le_of_not_lt h1
    · have hlu : l.magnitude ≤ u.magnitude := hlegal l rfl u rfl
      split_ifs at hr with h0 h1 h2 <;>
        simp only [Except.ok.injEq] at hr <;> subst hr
      · exact ⟨fun l₀ hl => (by cases hl; exact le_refl _),
          fun u₀ hu => (by cases hu; exact hlu)⟩
      · exact ⟨fun l₀ hl => (by cases hl; exact hlu),
          fun u₀ hu => (by cases hu; exact le_refl _)⟩
      · exact ⟨fun l₀ hl => (by cases hl; exact le_of_not_lt h1),
          fun u₀ hu => (by cases hu; exact le_of_not_lt h2)⟩
  · rintro l u rfl rfl hlt
    simp only [Range.roundTo, hf, if_neg (not_lt.mpr hf0), hm,
      if_pos hlt]

/-- Witness for C3: rounding 5 bytes up to KiB under bounds
(Range 0, Range 100) stays within the bounds (the rounded value 1024 is
clamped down to 100), and illegal bounds raise the value error. -/
theorem roundTo_bounds_witness :
    get_unit_value (.named ⟨"Ki", 1024⟩) = some 1024 ∧
    (0 : ℚ) ≤ 1024 ∧
    ((∀ l, (some (Range.mk 0) : Option Range) = some l →
        ∀ u, (some (Range.mk 100) : Option Range) = some u →
          l.magnitude ≤ u.magnitude) →
      ∀ r, (Range.mk 5).roundTo false (.named ⟨"Ki", 1024⟩) .up
          (some ⟨0⟩, some ⟨100⟩) = .ok r →
        (∀ l, (some (Range.mk 0) : Option Range) = some l →
          l.magnitude ≤ r.magnitude) ∧
        (∀ u, (some (Range.mk 100) : Option Range) = some u →
          r.magnitude ≤ u.magnitude)) ∧
    (∀ l u, (some (Range.mk 100) : Option Range) = some l →
      (some (Range.mk 0) : Option Range) = some u →
      u.magnitude < l.magnitude →
      (Range.mk 5).roundTo false (.named ⟨"Ki", 1024⟩) .up
          (some ⟨100⟩, some ⟨0⟩) = .error .valueError) :=
  ⟨rfl, by norm_num,
    (roundTo_bounds ⟨5⟩ (.named ⟨"Ki", 1024⟩) .up (some ⟨0⟩) (some ⟨100⟩)
      1024 rfl (by norm_num)).1,
    (roundTo_bounds ⟨5⟩ (.named ⟨"Ki", 1024⟩) .up (some ⟨100⟩) (some ⟨0⟩)
      1024 rfl (by norm_num)).2⟩

theorem floor_intCast_add_half (n : ℤ) : ⌊(n : ℚ) + 1 / 2⌋ = n := by
  rw [add_comm, Int.floor_add_int]
  norm_num

theorem ceil_intCast_sub_half (n : ℤ) : ⌈(n : ℚ) - 1 / 2⌉ = n := by
  rw [sub_eq_add_neg, add_comm, Int.ceil_add_int]
  norm_num

theorem round_to_int_of_den_one (q : ℚ) (h : q.den = 1)
    (m : RoundingMethod) : round_to_int q m = q.num := by
  have hq : (q.num : ℚ) = q := by
    rw [← Rat.den_eq_one_iff]
    exact h
  have hfl : ⌊q⌋ = q.num := by
    conv_lhs => rw [← hq]
    exact Int.floor_intCast q.num
  have hce : ⌈q⌉ = q.num := by
    conv_lhs => rw [← hq]
    exact Int.ceil_intCast q.num
  have hfh : ⌊q + 1 / 2⌋ = q.num := by
    conv_lhs => rw [← hq]
    exact floor_intCast_add_half q.num
  have hch : ⌈q - 1 / 2⌉ = q.num := by
    conv_lhs => rw [← hq]
    exact ceil_intCast_sub_half q.num
  cases m
  case up => exact hce
  case down => exact hfl
  case toZero =>
    show (if 0 ≤ q then ⌊q⌋ else ⌈q⌉) = q.num
    split_ifs
    · exact hfl
    · exact hce
  case halfUp => exact hfh
  case halfDown => exact hch
  case halfZero =>
    show (if 0 ≤ q then ⌈q - 1 / 2⌉ else ⌊q + 1 / 2⌋) = q.num
    split_ifs
    · exact hch
    · exact hfh

/-- C7: for every Size, every unit specifier with positive factor such
that `convertTo` yields an exact integer, and every rounding method,
`roundTo` with no bounds returns a Size equal to the original (under the
construction invariant that a strict-mode Size has integral
magnitude). -/
theorem roundTo_idempotent (strict : Bool) (s : Range) (unit : UnitSpec)
    (rounding : RoundingMethod) (f c : ℚ)
    (hf : get_unit_value unit = some f) (hfpos : 0 < f)
    (hc : s.convertTo (some unit) = .ok c) (hden : c.den = 1)
    (hstrict : strict = true → s.magnitude.den = 1) :
    s.roundTo strict unit rounding (none, none) = .ok s := by
  obtain ⟨f2, hg2, hpos2, hcval⟩ := convertTo_ok hc
  rw [hf] at hg2
  obtain rfl : f = f2 := Option.some.inj hg2
  have hfne : f ≠ 0 := ne_of_gt hfpos
  have hmul : ((round_to_int (s.magnitude / f) rounding : ℤ) : ℚ) * f =
      s.magnitude := by
    rw [← hcval, round_to_int_of_den_one c hden rounding]
    have hcq : (c.num : ℚ) = c := by
      rw [← Rat.den_eq_one_iff]
      exact hden
    rw [hcq, hcval]
    exact div_mul_cancel₀ s.magnitude hfne
  simp only [Range.roundTo, hf, if_neg (not_lt.mpr hfpos.le),
    if_neg hfne, rangeOfFraction_eq, hmul]
  rcases strict with _ | _
  · simp
  · simp [hstrict rfl]

/-- Witness for C7: 2048 bytes convert exactly to 2 KiB, so rounding to
KiB with the round-up method returns the Size unchanged. -/
theorem roundTo_idempotent_witness :
    get_unit_value (.named ⟨"Ki", 1024⟩) = some 1024 ∧
    (0 : ℚ) < 1024 ∧
    (Range.mk 2048).convertTo (some (.named ⟨"Ki", 1024⟩)) = .ok 2 ∧
    (2 : ℚ).den = 1 ∧
    (Range.mk 2048).roundTo false (.named ⟨"Ki", 1024⟩) .up (none, none) =
      .ok ⟨2048⟩ :=
  ⟨rfl, by norm_num,
    by norm_num [Range.convertTo, get_unit_value],
    by norm_num,
    roundTo_idempotent false ⟨2048⟩ (.named ⟨"Ki", 1024⟩) .up 1024 2 rfl
      (by norm_num) (by norm_num [Range.convertTo, get_unit_value])
      (by norm_num) (fun h => nomatch h)⟩

/-- C10: the constructor never checks the sign of the resolved unit
factor: with a specifier resolving to factor `f ≤ 0` the initializer (in
the default non-strict mode) succeeds with magnitude exactly `v * f`,
while `convertTo` rejects the same specifier with the value error for
`f ≤ 0` and `roundTo` rejects it for `f < 0`. -/
theorem init_ignores_factor_sign (s : Range) (v : ℚ) (unit : UnitSpec)
    (rounding : RoundingMethod) (f : ℚ)
    (hf : get_unit_value unit = some f) (hf0 : f ≤ 0) :
    Range.init false (.num v) (some unit) = .ok ⟨v * f⟩ ∧
    s.convertTo (some unit) = .error .valueError ∧
    (f < 0 → s.roundTo false unit rounding (none, none) =
      .error .valueError) := by
  refine ⟨?_, ?_, ?_⟩
  · simp [Range.init, hf]
  · simp [Range.convertTo, hf, hf0]
  · intro hneg
    simp [Range.roundTo, hf, hneg]

/-- Witness for C10: the raw-number specifier −2 is accepted by the
constructor (Size(3, −2) has magnitude 3 × (−2)) but rejected by
`convertTo`, and by `roundTo` since −2 < 0. -/
theorem init_ignores_factor_sign_witness :
    get_unit_value (.num (-2)) = some (-2) ∧ (-2 : ℚ) ≤ 0 ∧
    (Range.init false (.num 3) (some (.num (-2))) = .ok ⟨3 * (-2)⟩ ∧
      (Range.mk 5).convertTo (some (.num (-2))) = .error .valueError ∧
      ((-2 : ℚ) < 0 → (Range.mk 5).roundTo false (.num (-2)) .up
        (none, none) = .error .valueError)) :=
  ⟨rfl, by norm_num,
    init_ignores_factor_sign ⟨5⟩ 3 (.num (-2)) .up (-2) rfl (by norm_num)⟩

/-- C9: equality never raises: a Range equals a Range exactly when the
magnitudes agree, inequality is its complement, every non-Range operand
compares unequal (`False` for ==, `True` for !=), and the hash depends on
the magnitude alone, so equal Ranges hash alike. -/
theorem eq_ne_hash_contract (s t : Range) (q : ℚ) :
    (Range.eq s (.size t) = true ↔ s.magnitude = t.magnitude) ∧
    (Range.ne s (.size t) = true ↔ s.magnitude ≠ t.magnitude) ∧
    Range.eq s (.num q) = false ∧
    Range.eq s .other = false ∧
    Range.ne s (.num q) = true ∧
    Range.ne s .other = true ∧
    (s.magnitude = t.magnitude →
      Range.hashValue s = Range.hashValue t) := by
  refine ⟨by simp [Range.eq], by simp [Range.ne], rfl, rfl, rfl, rfl, ?_⟩
  intro h
  rw [Range.hashValue, Range.hashValue, h]

/-- Witness for C9 at equal one-byte Ranges and the number operand 5. -/
theorem eq_ne_hash_contract_witness :
    Range.hashValue ⟨1⟩ = Range.hashValue ⟨1⟩ ∧
    Range.eq ⟨1⟩ (.num 5) = false ∧
    Range.ne ⟨1⟩ (.num 5) = true :=
  ⟨(eq_ne_hash_contract ⟨1⟩ ⟨1⟩ 5).2.2.2.2.2.2 rfl,
    (eq_ne_hash_contract ⟨1⟩ ⟨1⟩ 5).2.2.1,
    (eq_ne_hash_contract ⟨1⟩ ⟨1⟩ 5).2.2.2.2.1⟩

/-- Counterexample to C4 as stated: at n = 1 and s = Range(0), the
reflected operations raise the nonsensical-binary-operation error — in
particular `1 - Range(0)` is not the Size `Size(1) - Range(0) = Range(1)`
— and the same happens for %, divmod, /, and //. -/
theorem reflected_number_ops_counterexample :
    Range.rsub false ⟨0⟩ (.num 1) = .error .nonsensicalBinOp ∧
    Range.rsub false ⟨0⟩ (.num 1) ≠ .ok ⟨1⟩ ∧
    Range.rmod false ⟨1⟩ (.num 1) = .error .nonsensicalBinOp ∧
    Range.rdivmod false ⟨1⟩ (.num 1) = .error .nonsensicalBinOp ∧
    Range.rtruediv ⟨1⟩ (.num 1) = .error .nonsensicalBinOp ∧
    Range.rfloordiv ⟨1⟩ (.num 1) = .error .nonsensicalBinOp :=
  ⟨rfl, fun h => (nomatch h), rfl, rfl, rfl, rfl⟩

/-- C4 amended: every reflected arithmetic hook demands a `Range` operand,
so each reflected operation applied to a precise number raises the
nonsensical-binary-operation (type) error and never returns a value. -/
theorem reflected_number_ops_rejected (strict : Bool) (s : Range)
    (n : ℚ) :
    Range.rsub strict s (.num n) = .error .nonsensicalBinOp ∧
    Range.rmod strict s (.num n) = .error .nonsensicalBinOp ∧
    Range.rdivmod strict s (.num n) = .error .nonsensicalBinOp ∧
    Range.rtruediv s (.num n) = .error .nonsensicalBinOp ∧
    Range.rfloordiv s (.num n) = .error .nonsensicalBinOp :=
  ⟨rfl, rfl, rfl, rfl, rfl⟩

/-- Counterexample to C5 as stated: Range ** Range raises the
nonsensical-binary-operation error, not the power-result error, and so
does a number raised to a Range (the reflected hook). -/
theorem pow_counterexample :
    Range.pow ⟨0⟩ (.size ⟨0⟩) = .error .nonsensicalBinOp ∧
    Range.rpow ⟨0⟩ (.num 2) = .error .nonsensicalBinOp ∧
    RangeError.nonsensicalBinOp ≠ RangeError.powerResult :=
  ⟨rfl, rfl, by decide⟩

/-- C5 amended: every power expression involving a Range raises an error
and never returns a value (the result type is empty); the dedicated
power-result error is raised exactly for a Range base with a
precise-number exponent, while a Range exponent — in Range ** Range or in
number ** Range — raises the nonsensical-binary-operation error. -/
theorem pow_always_rejected (s t : Range) (n : ℚ) (other : Operand) :
    Range.pow s (.num n) = .error .powerResult ∧
    Range.pow s (.size t) = .error .nonsensicalBinOp ∧
    Range.pow s .other = .error .nonsensicalBinOp ∧
    Range.rpow s other = .error .nonsensicalBinOp :=
  ⟨rfl, rfl, rfl, rfl⟩

theorem rangeOfFraction_strict_den {m : ℚ} {r : Range}
    (h : rangeOfFraction true m = .ok r) : r.magnitude.den = 1 := by
  rw [rangeOfFraction_eq] at h
  by_cases hd : m.den = 1
  · rw [if_neg (by simp [hd])] at h
    cases h
    exact hd
  · rw [if_pos (by simp [hd])] at h
    cases h

/-- C6: with strict mode active, every operation of `_size.py` that
produces a Range either yields one whose magnitude is an exact integer
(denominator 1) or raises the fractional-result error: the initializer,
addition, subtraction and its reflection, multiplication, true division,
floor division, modulus and its reflection, divmod and its reflection,
negation, absolute value, unary plus, deep copy, and rounding (whose
Range-typed bounds satisfy the same construction invariant). -/
theorem strict_mode_integral :
    (∀ v units r, Range.init true v units = .ok r →
      r.magnitude.den = 1) ∧
    (∀ s other r, Range.add true s other = .ok r →
      r.magnitude.den = 1) ∧
    (∀ s other r, Range.sub true s other = .ok r →
      r.magnitude.den = 1) ∧
    (∀ s other r, Range.rsub true s other = .ok r →
      r.magnitude.den = 1) ∧
    (∀ s other r, Range.mul true s other = .ok r →
      r.magnitude.den = 1) ∧
    (∀ s other r, Range.truediv true s other = .ok (.inr r) →
      r.magnitude.den = 1) ∧
    (∀ s other r, Range.floordiv true s other = .ok (.inr r) →
      r.magnitude.den = 1) ∧
    (∀ s other r, Range.mod true s other = .ok r →
      r.magnitude.den = 1) ∧
    (∀ s other r, Range.rmod true s other = .ok r →
      r.magnitude.den = 1) ∧
    (∀ s other d r, Range.divmodOp true s other = .ok (.inl (d, r)) →
      r.magnitude.den = 1) ∧
    (∀ s other d r, Range.divmodOp true s other = .ok (.inr (d, r)) →
      d.magnitude.den = 1 ∧ r.magnitude.den = 1) ∧
    (∀ s other d r, Range.rdivmod true s other = .ok (d, r) →
      r.magnitude.den = 1) ∧
    (∀ s r, Range.neg true s = .ok r → r.magnitude.den = 1) ∧
    (∀ s r, Range.absOp true s = .ok r → r.magnitude.den = 1) ∧
    (∀ s r, Range.pos true s = .ok r → r.magnitude.den = 1) ∧
    (∀ s r, Range.deepcopy true s = .ok r → r.magnitude.den = 1) ∧
    (∀ s unit rounding lower upper r,
      (∀ l, lower = some l → l.magnitude.den = 1) →
      (∀ u, upper = some u → u.magnitude.den = 1) →
      Range.roundTo true s unit rounding (lower, upper) = .ok r →
      r.magnitude.den = 1) := by
  refine ⟨?_, ?_, ?_, ?_, ?_, ?_, ?_, ?_, ?_, ?_, ?_, ?_, ?_, ?_, ?_,
    ?_, ?_⟩
  · intro v units r h
    rcases v with q | t | _
    · rcases hg : get_unit_value (units.getD (.named B)) with _ | f
      · simp [Range.init, hg] at h
      · simp only [Range.init, hg] at h
        split at h
        · cases h
        case isFalse hc =>
          cases h
          simpa using hc
    · rcases units with _ | u
      · simp only [Range.init] at h
        split at h
        · cases h
        case isFalse hc =>
          cases h
          simpa using hc
      · simp only [Range.init] at h
        cases h
    · simp only [Range.init] at h
      cases h
  · intro s other r h
    rcases other with t | q | _ <;> simp only [Range.add] at h
    · exact rangeOfFraction_strict_den h
    · cases h
    · cases h
  · intro s other r h
    rcases other with t | q | _ <;> simp only [Range.sub] at h
    · exact rangeOfFraction_strict_den h
    · cases h
    · cases h
  · intro s other r h
    rcases other with t | q | _ <;> simp only [Range.rsub] at h
    · exact rangeOfFraction_strict_den h
    · cases h
    · cases h
  · intro s other r h
    rcases other with t | q | _ <;> simp only [Range.mul] at h
    · cases h
    · exact rangeOfFraction_strict_den h
    · cases h
  · intro s other r h
    rcases other with t | q | _ <;> simp only [Range.truediv] at h
    · split at h
      · cases h
      · cases h
    · split at h
      · cases h
      · rcases hm : rangeOfFraction true (s.magnitude / q) with e | r0
        · rw [hm] at h
          cases h
        · rw [hm] at h
          simp only [Except.map, Except.ok.injEq, Sum.inr.injEq] at h
          exact h ▸ rangeOfFraction_strict_den hm
    · cases h
  · intro s other r h
    rcases other with t | q | _ <;> simp only [Range.floordiv] at h
    · split at h
      · cases h
      · cases h
    · split at h
      · cases h
      · rcases hm : rangeOfFraction true
            ((⌊s.magnitude / q⌋ : ℤ) : ℚ) with e | r0
        · rw [hm] at h
          cases h
        · rw [hm] at h
          simp only [Except.map, Except.ok.injEq, Sum.inr.injEq] at h
          exact h ▸ rangeOfFraction_strict_den hm
    · cases h
  · intro s other r h
    rcases other with t | q | _ <;> simp only [Range.mod] at h
    · split at h
      · cases h
      · exact rangeOfFraction_strict_den h
    · split at h
      · cases h
      · exact rangeOfFraction_strict_den h
    · cases h
  · intro s other r h
    rcases other with t | q | _ <;> simp only [Range.rmod] at h
    · split at h
      · cases h
      · exact rangeOfFraction_strict_den h
    · cases h
    · cases h
  · intro s other d r h
    rcases other with t | q | _ <;> simp only [Range.divmodOp] at h
    · split at h
      · cases h
      · rcases hm : rangeOfFraction true
            (s.magnitude - t.magnitude * ⌊s.magnitude / t.magnitude⌋)
            with e | r0
        · rw [hm] at h
          cases h
        · rw [hm] at h
          simp only [Except.map, Except.ok.injEq, Sum.inl.injEq,
            Prod.mk.injEq] at h
          exact h.2 ▸ rangeOfFraction_strict_den hm
    · split at h
      · cases h
      · rcases hm1 : rangeOfFraction true
            ((⌊s.magnitude / q⌋ : ℤ) : ℚ) with e | d0
        · rw [hm1] at h
          cases h
        · rw [hm1] at h
          rcases hm2 : rangeOfFraction true
              (s.magnitude - q * ⌊s.magnitude / q⌋) with e | r0
          · rw [hm2] at h
            cases h
          · rw [hm2] at h
            simp only [Except.bind, Except.map, Except.ok.injEq] at h
            cases h
    · cases h
  · intro s other d r h
    rcases other with t | q | _ <;> simp only [Range.divmodOp] at h
    · split at h
      · cases h
      · rcases hm : rangeOfFraction true
            (s.magnitude - t.magnitude * ⌊s.magnitude / t.magnitude⌋)
            with e | r0
        · rw [hm] at h
          cases h
        · rw [hm] at h
          simp only [Except.map, Except.ok.injEq] at h
          cases h
    · split at h
      · cases h
      · rcases hm1 : rangeOfFraction true
            ((⌊s.magnitude / q⌋ : ℤ) : ℚ) with e | d0
        · rw [hm1] at h
          cases h
        · rw [hm1] at h
          rcases hm2 : rangeOfFraction true
              (s.magnitude - q * ⌊s.magnitude / q⌋) with e | r0
          · rw [hm2] at h
            cases h
          · rw [hm2] at h
            simp only [Except.bind, Except.map, Except.ok.injEq,
              Sum.inr.injEq, Prod.mk.injEq] at h
            exact ⟨h.1 ▸ rangeOfFraction_strict_den hm1,
              h.2 ▸ rangeOfFraction_strict_den hm2⟩
    · cases h
  · intro s other d r h
    rcases other with t | q | _ <;> simp only [Range.rdivmod] at h
    · split at h
      · cases h
      · rcases hm : rangeOfFraction true
            (t.magnitude - s.magnitude * ⌊t.magnitude / s.magnitude⌋)
            with e | r0
        · rw [hm] at h
          cases h
        · rw [hm] at h
          simp only [Except.map, Except.ok.injEq, Prod.mk.injEq] at h
          exact h.2 ▸ rangeOfFraction_strict_den hm
    · cases h
    · cases h
  · intro s r h
    exact rangeOfFraction_strict_den h
  · intro s r h
    exact rangeOfFraction_strict_den h
  · intro s r h
    exact rangeOfFraction_strict_den h
  · intro s r h
    exact rangeOfFraction_strict_den h
  · intro s unit rounding lower upper r hl hu h
    rcases hg : get_unit_value unit with _ | f
    · simp [Range.roundTo, hg] at h
    · simp only [Range.roundTo, hg] at h
      split at h
      · cases h
      · rcases hm : (if f = 0 then rangeOfFraction true 0
            else rangeOfFraction true
              ((round_to_int (s.magnitude / f) rounding : ℚ) * f))
            with e | res
        · rw [hm] at h
          cases h
        · rw [hm] at h
          have hres : res.magnitude.den = 1 := by
            by_cases h0 : f = 0
            · rw [if_pos h0] at hm
              exact rangeOfFraction_strict_den hm
            · rw [if_neg h0] at hm
              exact rangeOfFraction_strict_den hm
          rcases lower with _ | l <;> rcases upper with _ | u <;>
            simp only [] at h
          · cases h
            exact hres
          · split at h
            · cases h
              exact hu _ rfl
            · cases h
              exact hres
          · split at h
            · cases h
              exact hl _ rfl
            · cases h
              exact hres
          · split at h
            · cases h
            · split at h
              · cases h
                exact hl _ rfl
              · split at h
                · cases h
                  exact hu _ rfl
                · cases h
                  exact hres

/-- Witness for C6: the strict initializer accepts the integer 5, and the
resulting magnitude has denominator 1 by the strict-mode theorem. -/
theorem strict_mode_integral_witness :
    Range.init true (.num 5) none = .ok ⟨5⟩ ∧
    ((⟨5⟩ : Range).magnitude.den = 1) := by
  have h : Range.init true (.num 5) none = .ok ⟨5⟩ := by
    norm_num [Range.init, get_unit_value, B]
  exact ⟨h, strict_mode_integral.1 (.num 5) none ⟨5⟩ h⟩

end JustBytes
